import Mathlib

/-!
# mp3toamr: naming, lookup and staging of converted artifacts

A shallow embedding of `main.go`.  Go strings are byte sequences, so a string
is a list of bytes and a byte is a natural number (below 256 in every real
string; nothing below depends on the bound).  The file system is a list of the
paths that exist; the outcomes of the operating system, the network and the
external encoder are fields of an environment record.
-/

set_option autoImplicit false

namespace Mp3ToAmr

/-! ## Strings -/

/-- Go `string`: a sequence of bytes. -/
abbrev GoString := List Nat

/-- An ASCII string literal as a byte sequence. -/
def lit (s : String) : GoString := s.data.map Char.toNat

/-- `strings.HasPrefix(s, pre)`. -/
def hasPrefix (s pre : GoString) : Bool := pre.isPrefixOf s

/-- `strings.HasSuffix(s, suf)`. -/
def hasSuffix (s suf : GoString) : Bool := suf.isSuffixOf s

/-- `strings.Contains(s, sub)`: `sub` occurs at some offset of `s`. -/
def contains : GoString → GoString → Bool
  | [], sub => sub.isPrefixOf []
  | c :: cs, sub => sub.isPrefixOf (c :: cs) || contains cs sub

/-- `strings.TrimPrefix(s, pre)`. -/
def trimPrefix (s pre : GoString) : GoString :=
  if hasPrefix s pre then s.drop pre.length else s

/-- `strings.TrimSuffix(s, suf)`. -/
def trimSuffix (s suf : GoString) : GoString :=
  if hasSuffix s suf then s.take (s.length - suf.length) else s

/-- ASCII upper-case letter to lower case, any other byte unchanged. -/
def lowerByte (c : Nat) : Nat := if 65 ≤ c ∧ c ≤ 90 then c + 32 else c

/-- `strings.ToLower(s)` on the bytes of `s`.  Go lowers Unicode code points;
the program only ever tests the result for the ASCII suffixes `.amr` and
`.mp3`, and no code point outside ASCII lowers to one of their letters, so the
byte-wise ASCII lowering decides those tests the same way. -/
def toLower (s : GoString) : GoString := s.map lowerByte

/-- Split at the first occurrence of the byte `sep`: the part before it and the
part after it, or `none` when `sep` does not occur. -/
def cutByte (sep : Nat) : GoString → Option (GoString × GoString)
  | [] => none
  | c :: cs =>
    if c = sep then some ([], cs)
    else match cutByte sep cs with
      | some (a, b) => some (c :: a, b)
      | none => none

/-- `strings.SplitN(s, string(sep), 2)` for a one-byte separator. -/
def splitN2 (s : GoString) (sep : Nat) : List GoString :=
  match cutByte sep s with
  | some (a, b) => [a, b]
  | none => [s]

/-- `fmt.Sprintf("%d", n)` for a non-negative `n`: the decimal digits. -/
def formatNat (n : Nat) : GoString := (Nat.toDigits 10 n).map Char.toNat

/-- `fmt.Sprintf("%d", t)` for a signed integer. -/
def formatInt : Int → GoString
  | Int.ofNat n => formatNat n
  | Int.negSucc n => 45 :: formatNat (n + 1)

/-- A decimal digit byte, `\d` of Go regular expressions. -/
def isDigit (c : Nat) : Bool := decide (48 ≤ c ∧ c ≤ 57)

/-! ## sanitizeFilename -/

/-- The character class of `sanitizeFilename`, the bytes of
`\ / : * ? " < > |`. -/
def invalidChars : List Nat := [92, 47, 58, 42, 63, 34, 60, 62, 124]

/-- `sanitizeFilename`: `regexp.MustCompile("[\\/:*?\"<>|]").ReplaceAllString(name, "_")`.
Every member of the class is one ASCII byte, such a byte never occurs inside a
multi-byte UTF-8 sequence, and the bytes that do not match are copied, so the
replacement acts byte by byte. -/
def sanitizeFilename (name : GoString) : GoString :=
  name.map (fun c => if c ∈ invalidChars then 95 else c)

/-! ## Paths -/

/-- The directory of published artifacts, `downloadDir`. -/
def downloadDir : GoString := lit "downloads"

/-- The scratch directory, `tempDir` of both conversion handlers. -/
def tempDir : GoString := lit "temp"

/-- `filepath.Join(dir, name)` on a POSIX host, for a clean relative `dir` and
a `name` that holds no separator and is not `..` (the only way the program
calls it): an empty `name` is dropped and a `.` element is cleaned away. -/
def filepathJoin (dir name : GoString) : GoString :=
  if name = [] ∨ name = lit "." then dir else dir ++ 47 :: name

/-- The loop of `filepath.Ext` over the reversed path: stop at a separator,
return from the last dot on. -/
def extRev : GoString → GoString → GoString
  | [], _ => []
  | c :: cs, acc =>
    if c = 47 then [] else if c = 46 then 46 :: acc else extRev cs (c :: acc)

/-- `filepath.Ext(path)`: the suffix beginning at the final dot of the final
element of `path`, empty if there is no dot. -/
def filepathExt (path : GoString) : GoString := extRev path.reverse []

/-- `filepath.Base(path)` on a POSIX host. -/
def filepathBase (path : GoString) : GoString :=
  if path = [] then lit "." else
    let p := (path.reverse.dropWhile (fun c => decide (c = 47))).reverse
    let last := (p.reverse.takeWhile (fun c => decide (c ≠ 47))).reverse
    if last = [] then lit "/" else last

/-! ## File system and responses -/

/-- The file system: the paths that exist. -/
abbrev FS := List GoString

/-- `os.Create(p)` that succeeds (also `os.CreateTemp`): `p` exists afterwards. -/
def fsCreate (fs : FS) (p : GoString) : FS := if p ∈ fs then fs else p :: fs

/-- `os.Remove(p)`: `p` does not exist afterwards (a failure is ignored by the
program; an unlink of a file that is still open succeeds, as on POSIX). -/
def fsRemove (fs : FS) (p : GoString) : FS := fs.filter (fun q => decide (q ≠ p))

/-- `if _, err := os.Stat(dir); os.IsNotExist(err) { os.Mkdir(dir, 0755) }`. -/
def fsMkdirIfAbsent (fs : FS) (dir : GoString) : FS := fsCreate fs dir

/-- What a handler writes to the `http.ResponseWriter`. -/
inductive Response where
  /-- `http.Error(w, msg, status)`. -/
  | error (status : Nat) (msg : GoString)
  /-- `http.NotFound(w, r)`. -/
  | notFound
  /-- The JSON answer of `serveFile`: `url`, `name` and, when the companion was
  published, `mp3Url` and `mp3Name`. -/
  | json (url name : GoString) (mp3 : Option (GoString × GoString))
  /-- `http.ServeFile(w, r, path)` under the download headers: the plain file
  name of `Content-Disposition` and the `Content-Type`. -/
  | file (path originalName contentType : GoString)
  deriving DecidableEq, Repr

/-- An access of the file system by `handleDownload`. -/
inductive FsOp where
  /-- `os.Stat(path)`. -/
  | stat (path : GoString)
  /-- `http.ServeFile(w, r, path)`. -/
  | serve (path : GoString)
  deriving DecidableEq, Repr

/-- Everything a request handler takes from outside the program: the request,
the clock, and the outcomes of the operating system, the network and the
encoder. -/
structure Env where
  /-- `r.Method`. -/
  method : GoString
  /-- `time.Now().Unix()` inside `serveFile`. -/
  now : Int
  /-- Whether `r.ParseMultipartForm` succeeds. -/
  parseFormOk : Bool
  /-- `header.Filename` of `r.FormFile("file")`, `none` when it fails. -/
  formFile : Option GoString
  /-- `r.FormValue("url")`. -/
  urlValue : GoString
  /-- `fetchAPI(urlStr)`: the trimmed body, empty on any failure. -/
  fetchAPI : GoString → GoString
  /-- `url.Parse(urlStr)` followed by `.Path`, `none` on a parse error. -/
  urlParse : GoString → Option GoString
  /-- Whether `http.NewRequest("GET", urlStr, nil)` succeeds. -/
  newRequestOk : Bool
  /-- `client.Do(req)`: the status code, or the text of the error. -/
  doResult : Except GoString Nat
  /-- `os.CreateTemp(tempDir, pattern)`: the name of the created file, `none`
  on error. -/
  createTemp : Option GoString
  /-- Whether `io.Copy` into the staged file succeeds. -/
  copyOk : Bool
  /-- The encoder run of `convertCore`: `none` on success, else the error text. -/
  convertErr : Option GoString
  /-- Whether a failed encoder run leaves an output file behind. -/
  convertLeavesOutput : Bool
  /-- Whether `os.Open(amrPath)` succeeds on an existing file. -/
  openAmrOk : Bool
  /-- Whether `os.Create(finalAmrPath)` succeeds. -/
  createAmrOk : Bool
  /-- Whether `os.Open(originalMp3Path)` succeeds on an existing file. -/
  openMp3Ok : Bool
  /-- Whether `os.Create(finalMp3Path)` succeeds. -/
  createMp3Ok : Bool

/-! ## serveFile -/

/-- Lines 126-128: force the display name to end in `.amr` (any letter case). -/
def amrDownloadName (downloadName : GoString) : GoString :=
  if !hasSuffix (toLower downloadName) (lit ".amr") then downloadName ++ lit ".amr"
  else downloadName

/-- Lines 131-134: `safeName`, the sanitized name cut to its first 50 bytes. -/
def safeNameOf (downloadName : GoString) : GoString :=
  let safeName := sanitizeFilename downloadName
  if safeName.length > 50 then safeName.take 50 else safeName

/-- Lines 137-140: `finalAmrName`. -/
def finalAmrNameOf (timestamp : Int) (safeName : GoString) : GoString :=
  let finalAmrName := formatInt timestamp ++ 95 :: safeName
  if !hasSuffix finalAmrName (lit ".amr") then finalAmrName ++ lit ".amr"
  else finalAmrName

/-- Lines 162-164: `finalMp3Name`. -/
def finalMp3NameOf (timestamp : Int) (safeName : GoString) : GoString :=
  let safeMp3Name := trimSuffix safeName (lit ".amr") ++ lit ".mp3"
  formatInt timestamp ++ 95 :: safeMp3Name

/-- The public name `serveFile` gives the primary artifact of a display name. -/
def primaryPublicName (timestamp : Int) (downloadName : GoString) : GoString :=
  finalAmrNameOf timestamp (safeNameOf (amrDownloadName downloadName))

/-- The public name `serveFile` gives the companion artifact of a display name. -/
def companionPublicName (timestamp : Int) (downloadName : GoString) : GoString :=
  finalMp3NameOf timestamp (safeNameOf (amrDownloadName downloadName))

/-- The display stem of both public names: the truncated sanitized name without
a trailing `.amr`. -/
def stemOf (downloadName : GoString) : GoString :=
  trimSuffix (safeNameOf (amrDownloadName downloadName)) (lit ".amr")

/-- The shape the specification gives every public name: decimal digits, one
underscore, a non-empty display stem, then `.amr` or `.mp3`. -/
def IsPublicName (name : GoString) : Prop :=
  ∃ ds stem ext : GoString, name = ds ++ 95 :: (stem ++ ext) ∧ ds ≠ []
    ∧ (∀ c ∈ ds, isDigit c = true) ∧ stem ≠ [] ∧ (ext = lit ".amr" ∨ ext = lit ".mp3")

/-- Every byte is an ASCII character, so that a character is one byte. -/
def IsAscii (s : GoString) : Prop := ∀ c ∈ s, c < 128

/-- The number of characters of a UTF-8 string: its bytes that do not continue
a multi-byte sequence (the bytes outside `0x80..0xBF`). -/
def charCount (s : GoString) : Nat :=
  (s.filter (fun c => !decide (128 ≤ c ∧ c < 192))).length

/-- Lines 152-174 of `serveFile`: publish the companion when asked to. -/
def serveMp3 (env : Env) (fs : FS) (downloadName safeName originalMp3Path : GoString) :
    FS × Option (GoString × GoString) :=
  if originalMp3Path ≠ [] then
    if env.openMp3Ok && decide (originalMp3Path ∈ fs) then
      let mp3Name := trimSuffix downloadName (lit ".amr") ++ lit ".mp3"
      let finalMp3Name := finalMp3NameOf env.now safeName
      let finalMp3Path := filepathJoin downloadDir finalMp3Name
      if env.createMp3Ok then
        (fsCreate fs finalMp3Path, some (lit "/download/" ++ finalMp3Name, mp3Name))
      else (fs, none)
    else (fs, none)
  else (fs, none)

/-- `serveFile(w, amrPath, downloadName, originalMp3Path)`: the file system
afterwards and the response. -/
def serveFile (env : Env) (fs : FS) (amrPath downloadName originalMp3Path : GoString) :
    FS × Response :=
  if !(env.openAmrOk && decide (amrPath ∈ fs)) then
    (fs, Response.error 500 (lit "Result file read error"))
  else
    let downloadName := amrDownloadName downloadName
    let safeName := safeNameOf downloadName
    let finalAmrName := finalAmrNameOf env.now safeName
    let finalAmrPath := filepathJoin downloadDir finalAmrName
    if !env.createAmrOk then
      (fs, Response.error 500 (lit "Save file error"))
    else
      let fs := fsCreate fs finalAmrPath
      let r := serveMp3 env fs downloadName safeName originalMp3Path
      (r.1, Response.json (lit "/download/" ++ finalAmrName) downloadName r.2)

/-! ## handleDownload -/

/-- Lines 208-212: the name shown to the user, the public name without its
timestamp prefix. -/
def originalNameOf (filename : GoString) : GoString :=
  let parts := splitN2 filename 95
  if parts.length = 2 then parts.getD 1 filename else filename

/-- The response of `handleDownload` and its file-system accesses, in order. -/
structure DownloadResult where
  /-- The response. -/
  resp : Response
  /-- The accesses. -/
  fsOps : List FsOp
  deriving DecidableEq, Repr

/-- `handleDownload` on the request path `r.URL.Path`. -/
def handleDownload (fs : FS) (urlPath : GoString) : DownloadResult :=
  let filename := trimPrefix urlPath (lit "/download/")
  if contains filename (lit "..") || contains filename (lit "/")
      || contains filename (lit "\\") then
    { resp := Response.error 400 (lit "Invalid filename"), fsOps := [] }
  else
    let filePath := filepathJoin downloadDir filename
    if filePath ∉ fs then
      { resp := Response.notFound, fsOps := [FsOp.stat filePath] }
    else
      let originalName := originalNameOf filename
      let contentType :=
        if hasSuffix (toLower filename) (lit ".mp3") then lit "audio/mpeg"
        else lit "audio/amr"
      { resp := Response.file filePath originalName contentType,
        fsOps := [FsOp.stat filePath, FsOp.serve filePath] }

/-! ## convertCore and handleUpload -/

/-- `convertCore(inputPath)`: the encoder writes `inputPath + ".amr"`; on
success that path is returned, on failure the error text. -/
def convertCore (env : Env) (fs : FS) (inputPath : GoString) : FS × Except GoString GoString :=
  let outputName := inputPath ++ lit ".amr"
  match env.convertErr with
  | none => (fsCreate fs outputName, Except.ok outputName)
  | some e => (if env.convertLeavesOutput then fsCreate fs outputName else fs, Except.error e)

/-- `handleUpload`: the file system afterwards and the response.  The deferred
calls run when the handler returns, last registered first: the removal of the
encoder output, then the removal of the staged file. -/
def handleUpload (env : Env) (fs : FS) : FS × Response :=
  if env.method ≠ lit "POST" then (fs, Response.error 405 (lit "Method not allowed"))
  else if !env.parseFormOk then (fs, Response.error 400 (lit "File too big"))
  else match env.formFile with
    | none => (fs, Response.error 400 (lit "Invalid file"))
    | some headerFilename =>
      let fs := fsMkdirIfAbsent fs tempDir
      match env.createTemp with
      | none => (fs, Response.error 500 (lit "Server error"))
      | some tempInput =>
        let fs := fsCreate fs tempInput
        if !env.copyOk then (fsRemove fs tempInput, Response.error 500 (lit "Server error"))
        else match convertCore env fs tempInput with
          | (fs, Except.error e) =>
            (fsRemove fs tempInput, Response.error 500 (lit "FFmpeg Error: " ++ e))
          | (fs, Except.ok outputPath) =>
            let filename := trimSuffix headerFilename (filepathExt headerFilename)
            let r := serveFile env fs outputPath (filename ++ lit ".amr") []
            (fsRemove (fsRemove r.1 outputPath) tempInput, r.2)

/-! ## handleUrlConvert -/

/-- The regular expression `[?&]id=(\d+)` matched at the head of `s`: the
captured digits. -/
def matchIdAt (s : GoString) : Option GoString :=
  match s with
  | [] => none
  | c :: cs =>
    if (c = 63 ∨ c = 38) ∧ hasPrefix cs (lit "id=") then
      let ds := (cs.drop 3).takeWhile isDigit
      if ds = [] then none else some ds
    else none

/-- `re.FindStringSubmatch(urlStr)` for `[?&]id=(\d+)`: group 1 of the leftmost
match, `none` when there is no match. -/
def findId : GoString → Option GoString
  | [] => none
  | c :: cs =>
    match matchIdAt (c :: cs) with
    | some ds => some ds
    | none => findId cs

/-- The address of the title lookup. -/
def nameApiUrl (neteaseID : GoString) : GoString :=
  lit "https://v.iarc.top/?type=name&id=" ++ neteaseID

/-- The address of the artist lookup. -/
def artistApiUrl (neteaseID : GoString) : GoString :=
  lit "https://v.iarc.top/?type=artist&id=" ++ neteaseID

/-- The address the download is rewritten to. -/
def resourceApiUrl (neteaseID : GoString) : GoString :=
  lit "https://v.iarc.top/?type=url&id=" ++ neteaseID

/-- The values `handleUrlConvert` derives from the submitted address. -/
structure Derived where
  /-- The base name of the download, `filename`. -/
  filename : GoString
  /-- The address that is fetched, `urlStr`. -/
  urlStr : GoString
  /-- Whether the address was recognized, `isNetease`. -/
  isNetease : Bool
  deriving DecidableEq, Repr

/-- Lines 356-366: the name from the two lookups. -/
def metadataName (songName artistName : GoString) : GoString :=
  if songName ≠ [] then
    sanitizeFilename (if artistName ≠ [] then songName ++ 95 :: artistName else songName)
  else []

/-- Lines 329-371: the recognized-source branch. -/
def neteaseStep (env : Env) (urlStr : GoString) : Derived :=
  if contains urlStr (lit "music.163.com") then
    match findId urlStr with
    | some neteaseID =>
      let songName := env.fetchAPI (nameApiUrl neteaseID)
      let artistName := env.fetchAPI (artistApiUrl neteaseID)
      { filename := metadataName songName artistName,
        urlStr := resourceApiUrl neteaseID, isNetease := true }
    | none => { filename := [], urlStr := urlStr, isNetease := false }
  else { filename := [], urlStr := urlStr, isNetease := false }

/-- Lines 373-383: the name from the path of the address, when there is none yet. -/
def urlBasename (env : Env) (filename urlStr : GoString) : GoString :=
  if filename = [] then
    match env.urlParse urlStr with
    | some path =>
      let base := filepathBase path
      if base ≠ lit "." ∧ base ≠ lit "/" ∧ base ≠ [] then
        trimSuffix base (filepathExt base)
      else filename
    | none => filename
  else filename

/-- Lines 326-388: `filename`, `urlStr` and `isNetease` before the download. -/
def deriveFilename (env : Env) (urlStr : GoString) : Derived :=
  let d := neteaseStep env urlStr
  let filename := urlBasename env d.filename d.urlStr
  let filename := if filename = [] then lit "arcpi" else filename
  { d with filename := filename }

/-- `handleUrlConvert`: the file system afterwards and the response.  The staged
file is removed by explicit calls, the encoder output by a deferred one. -/
def handleUrlConvert (env : Env) (fs : FS) : FS × Response :=
  if env.method ≠ lit "POST" then (fs, Response.error 405 (lit "Method not allowed"))
  else if env.urlValue = [] then (fs, Response.error 400 (lit "URL is required"))
  else
    let d := deriveFilename env env.urlValue
    if !env.newRequestOk then (fs, Response.error 400 (lit "Invalid URL"))
    else match env.doResult with
      | Except.error e => (fs, Response.error 400 (lit "Failed to download file: " ++ e))
      | Except.ok status =>
        if status ≠ 200 then
          (fs, Response.error 400 (lit "Download failed with status: " ++ formatNat status))
        else
          let fs := fsMkdirIfAbsent fs tempDir
          match env.createTemp with
          | none => (fs, Response.error 500 (lit "Server error"))
          | some tempInput =>
            let fs := fsCreate fs tempInput
            if !env.copyOk then
              (fsRemove fs tempInput, Response.error 500 (lit "Download save failed"))
            else match convertCore env fs tempInput with
              | (fs, Except.error e) =>
                (fsRemove fs tempInput, Response.error 500 (lit "FFmpeg Error: " ++ e))
              | (fs, Except.ok outputPath) =>
                let mp3PathToSave := if d.isNetease then tempInput else []
                let r := serveFile env fs outputPath (d.filename ++ lit ".amr") mp3PathToSave
                (fsRemove (fsRemove r.1 tempInput) outputPath, r.2)

/-- A sample environment: a `POST` whose every outside step succeeds. -/
def sampleEnv : Env where
  method := lit "POST"
  now := 1700000000
  parseFormOk := true
  formFile := some (lit "a..b.mp3")
  urlValue := lit "https://music.163.com/song?id=42"
  fetchAPI := fun u => if u = artistApiUrl (lit "42") then lit "X" else []
  urlParse := fun u => if u = resourceApiUrl (lit "42") then some (lit "/") else none
  newRequestOk := true
  doResult := Except.ok 200
  createTemp := some (lit "temp/url-1.mp3")
  copyOk := true
  convertErr := none
  convertLeavesOutput := false
  openAmrOk := true
  createAmrOk := true
  openMp3Ok := true
  createMp3Ok := true

/-! ## Lemmas on strings -/

theorem hasSuffix_iff (s suf : GoString) : hasSuffix s suf = true ↔ suf <:+ s := by
  unfold hasSuffix
  exact List.isSuffixOf_iff_suffix

theorem hasPrefix_iff (s pre : GoString) : hasPrefix s pre = true ↔ pre <+: s := by
  unfold hasPrefix
  exact List.isPrefixOf_iff_prefix

theorem contains_iff (s sub : GoString) : contains s sub = true ↔ sub <:+: s := by
  induction s with
  | nil =>
    simp only [contains, List.isPrefixOf_iff_prefix]
    constructor
    · intro h; exact h.isInfix
    · intro h
      have : sub = [] := List.eq_nil_of_infix_nil h
      subst this; exact List.nil_prefix
  | cons c cs ih =>
    simp only [contains, Bool.or_eq_true, List.isPrefixOf_iff_prefix, ih]
    exact List.infix_cons_iff.symm

theorem digitChar_toNat (d : Nat) (h : d < 10) : (Nat.digitChar d).toNat = 48 + d := by
  interval_cases d <;> rfl

theorem toDigitsCore_digits (fuel : Nat) :
    ∀ (n : Nat) (acc : List Char), (∀ c ∈ acc, isDigit c.toNat = true) →
      ∀ c ∈ Nat.toDigitsCore 10 fuel n acc, isDigit c.toNat = true := by
  induction fuel with
  | zero => intro n acc hacc c hc; simpa [Nat.toDigitsCore] using hacc c hc
  | succ f ih =>
    intro n acc hacc c hc
    have hd : isDigit (Nat.digitChar (n % 10)).toNat = true := by
      rw [digitChar_toNat _ (Nat.mod_lt _ (by decide))]
      have : n % 10 < 10 := Nat.mod_lt _ (by decide)
      simp only [isDigit, decide_eq_true_eq]
      omega
    have hacc2 : ∀ c ∈ Nat.digitChar (n % 10) :: acc, isDigit c.toNat = true := by
      intro c hc
      rcases List.mem_cons.mp hc with h | h
      · rw [h]; exact hd
      · exact hacc c h
    simp only [Nat.toDigitsCore] at hc
    split at hc
    · exact hacc2 c hc
    · exact ih _ _ hacc2 c hc

theorem toDigitsCore_ne_nil (fuel n : Nat) (acc : List Char) :
    Nat.toDigitsCore 10 (fuel + 1) n acc ≠ [] := by
  have key : ∀ (f m : Nat) (a : List Char), a ≠ [] → Nat.toDigitsCore 10 f m a ≠ [] := by
    intro f
    induction f with
    | zero => intro m a ha; simpa [Nat.toDigitsCore] using ha
    | succ f ih =>
      intro m a _
      simp only [Nat.toDigitsCore]
      split
      · exact List.cons_ne_nil _ _
      · exact ih _ _ (List.cons_ne_nil _ _)
  simp only [Nat.toDigitsCore]
  split
  · exact List.cons_ne_nil _ _
  · exact key _ _ _ (List.cons_ne_nil _ _)

theorem formatNat_digits (n : Nat) : ∀ c ∈ formatNat n, isDigit c = true := by
  intro c hc
  simp only [formatNat, Nat.toDigits, List.mem_map] at hc
  obtain ⟨ch, hch, rfl⟩ := hc
  exact toDigitsCore_digits _ _ _ (by simp) ch hch

theorem formatNat_ne_nil (n : Nat) : formatNat n ≠ [] := by
  simp only [formatNat, Nat.toDigits, ne_eq, List.map_eq_nil_iff]
  exact toDigitsCore_ne_nil _ _ _

theorem formatInt_mem (t : Int) : ∀ c ∈ formatInt t, isDigit c = true ∨ c = 45 := by
  intro c hc
  cases t with
  | ofNat n => exact Or.inl (formatNat_digits n c hc)
  | negSucc n =>
    simp only [formatInt, List.mem_cons] at hc
    rcases hc with h | h
    · exact Or.inr h
    · exact Or.inl (formatNat_digits _ c h)

theorem formatInt_nonneg (t : Int) (ht : 0 ≤ t) : formatInt t = formatNat t.toNat := by
  cases t with
  | ofNat n => rfl
  | negSucc n => exact absurd ht (by simp [Int.negSucc_lt_zero])

theorem not_mem_formatInt (t : Int) (c : Nat) (hd : isDigit c = false) (hm : c ≠ 45) :
    c ∉ formatInt t := by
  intro hc
  rcases formatInt_mem t c hc with h | h
  · rw [hd] at h; exact Bool.noConfusion h
  · exact hm h

theorem cutByte_append (sep : Nat) (a b : GoString) (ha : sep ∉ a) :
    cutByte sep (a ++ sep :: b) = some (a, b) := by
  induction a with
  | nil => simp [cutByte]
  | cons c cs ih =>
    have hc : c ≠ sep := fun h => ha (h ▸ List.mem_cons_self _ _)
    have hcs : sep ∉ cs := fun h => ha (List.mem_cons_of_mem _ h)
    simp [cutByte, hc, ih hcs]

theorem originalNameOf_append (a b : GoString) (ha : 95 ∉ a) :
    originalNameOf (a ++ 95 :: b) = b := by
  simp [originalNameOf, splitN2, cutByte_append 95 a b ha]

/-- A suffix that does not hold the byte `x` lies behind every occurrence of `x`. -/
theorem suffix_append_cons_iff (suf pre s : GoString) (x : Nat) (hx : x ∉ suf) :
    suf <:+ pre ++ x :: s ↔ suf <:+ s := by
  constructor
  · rintro ⟨t, ht⟩
    rcases List.append_eq_append_iff.mp ht with ⟨a, h1, h2⟩ | ⟨a, h1, h2⟩
    · -- pre = t ++ a, suf = a ++ x :: s
      exact absurd (by rw [h2]; simp) hx
    · -- t = pre ++ a, x :: s = a ++ suf
      cases a with
      | nil => exact absurd (by simp at h2; rw [← h2]; simp) hx
      | cons y ys =>
        simp only [List.cons_append, List.cons.injEq] at h2
        exact ⟨ys, h2.2.symm⟩
  · intro h
    exact h.trans ((List.suffix_cons x s).trans (List.suffix_append pre (x :: s)))

theorem hasSuffix_append_cons (suf pre s : GoString) (x : Nat) (hx : x ∉ suf) :
    hasSuffix (pre ++ x :: s) suf = hasSuffix s suf := by
  rw [Bool.eq_iff_iff, hasSuffix_iff, hasSuffix_iff]
  exact suffix_append_cons_iff suf pre s x hx

theorem trimSuffix_append (s suf : GoString) : trimSuffix (s ++ suf) suf = s := by
  have h : hasSuffix (s ++ suf) suf = true := (hasSuffix_iff _ _).mpr (List.suffix_append s suf)
  simp [trimSuffix, h]

theorem trimSuffix_of_not (s suf : GoString) (h : hasSuffix s suf = false) :
    trimSuffix s suf = s := by
  simp [trimSuffix, h]

theorem trimPrefix_append (pre s : GoString) : trimPrefix (pre ++ s) pre = s := by
  have h : hasPrefix (pre ++ s) pre = true := (hasPrefix_iff _ _).mpr (List.prefix_append pre s)
  simp [trimPrefix, h]

/-! ## Lemmas on sanitizeFilename -/

theorem invalidChars_eq : invalidChars = lit "\\/:*?\"<>|" := by decide

theorem sanitizeFilename_not_mem (s : GoString) (c : Nat) (hc : c ∈ invalidChars) :
    c ∉ sanitizeFilename s := by
  intro h
  simp only [sanitizeFilename, List.mem_map] at h
  obtain ⟨x, _, hx⟩ := h
  split at hx
  · subst hx; revert hc; decide
  · subst hx; contradiction

theorem sanitizeFilename_fixed (s : GoString) (h : ∀ c ∈ invalidChars, c ∉ s) :
    sanitizeFilename s = s := by
  unfold sanitizeFilename
  conv_rhs => rw [← List.map_id s]
  apply List.map_congr_left
  intro x hx
  have : x ∉ invalidChars := fun hc => h x hc hx
  simp [this]

theorem sanitizeFilename_length (s : GoString) : (sanitizeFilename s).length = s.length := by
  simp [sanitizeFilename]

/-! ## handleDownload: the name check -/

/-- C1: whenever the name left after stripping `/download/` from the request
path contains `..`, `/` or `\`, `handleDownload` answers 400 "Invalid filename"
and has made no file-system access (neither `os.Stat` nor `http.ServeFile`). -/
theorem handleDownload_rejects_unsafe_name (fs : FS) (urlPath : GoString)
    (h : lit ".." <:+: trimPrefix urlPath (lit "/download/")
      ∨ lit "/" <:+: trimPrefix urlPath (lit "/download/")
      ∨ lit "\\" <:+: trimPrefix urlPath (lit "/download/")) :
    handleDownload fs urlPath
      = { resp := Response.error 400 (lit "Invalid filename"), fsOps := [] } := by
  have hc : (contains (trimPrefix urlPath (lit "/download/")) (lit "..")
      || contains (trimPrefix urlPath (lit "/download/")) (lit "/")
      || contains (trimPrefix urlPath (lit "/download/")) (lit "\\")) = true := by
    simp only [Bool.or_eq_true, contains_iff]
    tauto
  simp only [handleDownload, hc, if_true]

theorem handleDownload_rejects_unsafe_name_witness :
    handleDownload [lit "downloads/17_a.amr"] (lit "/download/../main.go")
      = { resp := Response.error 400 (lit "Invalid filename"), fsOps := [] } :=
  handleDownload_rejects_unsafe_name [lit "downloads/17_a.amr"] (lit "/download/../main.go")
    (Or.inl ((contains_iff _ _).mp (by decide)))

/-! ## sanitizeFilename -/

/-- C2: `sanitizeFilename` is a total function whose result holds none of the
bytes of `\ / : * ? " < > |`, and sanitizing twice gives the same as once. -/
theorem sanitizeFilename_clean_idempotent (s : GoString) :
    (∀ c ∈ lit "\\/:*?\"<>|", c ∉ sanitizeFilename s)
      ∧ sanitizeFilename (sanitizeFilename s) = sanitizeFilename s := by
  rw [← invalidChars_eq]
  exact ⟨fun c hc => sanitizeFilename_not_mem s c hc,
    sanitizeFilename_fixed _ (fun c hc => sanitizeFilename_not_mem s c hc)⟩

/-! ## Recovering the display name -/

/-- C5: for every timestamp `t` (the non-negative ones in particular) and any
string `d`, underscores in `d` included, the display name `handleDownload`
derives from the public name `t_d` (split at the first `_` only) is exactly `d`. -/
theorem originalNameOf_publicName (t : Int) (d : GoString) :
    originalNameOf (formatInt t ++ 95 :: d) = d :=
  originalNameOf_append _ _ (not_mem_formatInt t 95 (by decide) (by decide))

/-- C6, as stated, fails: the name recovered from the public name of the display
name "My Song" is "My Song.amr", which does not end in "My_Song.amr". -/
theorem my_song_not_underscored :
    originalNameOf (primaryPublicName 1700000000 (lit "My Song")) = lit "My Song.amr"
      ∧ hasSuffix (originalNameOf (primaryPublicName 1700000000 (lit "My Song")))
          (lit "My_Song.amr") = false := by
  decide

/-- C6, amended: publishing the display name "My Song" and stripping the
timestamp prefix of the public name at the first `_` gives "My Song.amr", the
space kept, at every timestamp. -/
theorem my_song_recovered (t : Int) :
    originalNameOf (primaryPublicName t (lit "My Song")) = lit "My Song.amr" := by
  have h : primaryPublicName t (lit "My Song") = formatInt t ++ 95 :: lit "My Song.amr" := by
    have h1 : safeNameOf (amrDownloadName (lit "My Song")) = lit "My Song.amr" := by decide
    have h2 : hasSuffix (formatInt t ++ 95 :: lit "My Song.amr") (lit ".amr") = true := by
      rw [hasSuffix_append_cons _ _ _ _ (by decide)]; decide
    simp only [primaryPublicName, h1, finalAmrNameOf, h2]
    rfl
  rw [h]
  exact originalNameOf_append _ _ (not_mem_formatInt t 95 (by decide) (by decide))

/-! ## The public names of serveFile -/

theorem trimSuffix_append_self (s suf : GoString) (h : hasSuffix s suf = true) :
    trimSuffix s suf ++ suf = s := by
  obtain ⟨t, rfl⟩ := (hasSuffix_iff _ _).mp h
  rw [trimSuffix_append]

theorem safeNameOf_eq_take (x : GoString) : safeNameOf x = (sanitizeFilename x).take 50 := by
  by_cases h : (sanitizeFilename x).length > 50
  · simp [safeNameOf, h]
  · simp only [safeNameOf, h, if_false]
    exact (List.take_of_length_le (by omega)).symm

theorem finalAmrNameOf_eq (t : Int) (safeName : GoString) :
    finalAmrNameOf t safeName = formatInt t ++ 95 ::
      (if hasSuffix safeName (lit ".amr") then safeName else safeName ++ lit ".amr") := by
  unfold finalAmrNameOf
  simp only [hasSuffix_append_cons (lit ".amr") (formatInt t) safeName 95 (by decide)]
  cases hasSuffix safeName (lit ".amr") <;> simp

theorem primaryPublicName_eq_stem (t : Int) (d : GoString) :
    primaryPublicName t d = formatInt t ++ 95 :: (stemOf d ++ lit ".amr") := by
  unfold primaryPublicName stemOf
  rw [finalAmrNameOf_eq]
  cases h : hasSuffix (safeNameOf (amrDownloadName d)) (lit ".amr")
  · simp [trimSuffix_of_not _ _ h]
  · simp [trimSuffix_append_self _ _ h]

theorem companionPublicName_eq_stem (t : Int) (d : GoString) :
    companionPublicName t d = formatInt t ++ 95 :: (stemOf d ++ lit ".mp3") := rfl

theorem amrDownloadName_length (d : GoString) : 4 ≤ (amrDownloadName d).length := by
  unfold amrDownloadName
  split
  · simp [lit]
  · rename_i h
    have h2 := (hasSuffix_iff _ _).mp (by simpa using h)
    have h3 := h2.length_le
    simpa [toLower, lit] using h3

theorem safeNameOf_amr_length (d : GoString) :
    4 ≤ (safeNameOf (amrDownloadName d)).length := by
  have h := amrDownloadName_length d
  rw [safeNameOf_eq_take, List.length_take, sanitizeFilename_length]
  omega

theorem sanitizeFilename_eq_of_clean (s r : GoString) (h : sanitizeFilename s = r)
    (hr : 95 ∉ r) : s = r := by
  induction s generalizing r with
  | nil => simpa [sanitizeFilename] using h
  | cons c cs ih =>
    cases r with
    | nil => simp [sanitizeFilename] at h
    | cons x xs =>
      simp only [sanitizeFilename, List.map_cons, List.cons.injEq] at h
      have hx : x ≠ 95 := fun e => hr (e ▸ List.mem_cons_self _ _)
      have hxs : 95 ∉ xs := fun e => hr (List.mem_cons_of_mem _ e)
      have hc : c = x := by
        by_cases hm : c ∈ invalidChars
        · rw [if_pos hm] at h; exact absurd h.1.symm hx
        · rw [if_neg hm] at h; exact h.1
      rw [hc, ih xs h.2 hxs]

theorem stemOf_ne_nil (d : GoString) (h1 : d ≠ []) (h2 : d ≠ lit ".amr") : stemOf d ≠ [] := by
  intro hs
  have hlen := safeNameOf_amr_length d
  unfold stemOf at hs
  cases h : hasSuffix (safeNameOf (amrDownloadName d)) (lit ".amr")
  · rw [trimSuffix_of_not _ _ h] at hs
    rw [hs] at hlen
    simp at hlen
  · have h3 := trimSuffix_append_self _ _ h
    rw [hs, List.nil_append] at h3
    -- the truncated sanitized name is `.amr`
    rw [safeNameOf_eq_take] at h3
    have h4 : sanitizeFilename (amrDownloadName d) = lit ".amr" := by
      have hl : (sanitizeFilename (amrDownloadName d)).length ≤ 50 := by
        by_contra hgt
        have := congrArg List.length h3
        rw [List.length_take] at this
        simp [lit] at this
        omega
      rw [h3]
      exact (List.take_of_length_le hl).symm
    have h5 := sanitizeFilename_eq_of_clean _ _ h4.symm.symm (by decide)
    unfold amrDownloadName at h5
    split at h5
    · have : d ++ lit ".amr" = [] ++ lit ".amr" := by simpa using h5
      exact h1 (List.append_cancel_right this)
    · exact h2 h5

theorem trimSuffix_isPrefix (s suf : GoString) : trimSuffix s suf <+: s := by
  unfold trimSuffix
  split
  · exact List.take_prefix _ _
  · exact List.prefix_refl _

theorem not_mem_stemOf (d : GoString) (c : Nat) (hc : c ∈ invalidChars) : c ∉ stemOf d := by
  intro h
  have h1 := (trimSuffix_isPrefix _ (lit ".amr")).subset h
  rw [safeNameOf_eq_take] at h1
  exact sanitizeFilename_not_mem _ c hc (List.mem_of_mem_take h1)

/-- Neither public name holds a `/` or a `\`: the part `handleDownload` checks
besides `..` is met by every published name. -/
theorem public_names_no_separator (t : Int) (d : GoString) :
    47 ∉ primaryPublicName t d ∧ 92 ∉ primaryPublicName t d
      ∧ 47 ∉ companionPublicName t d ∧ 92 ∉ companionPublicName t d := by
  have h47 := not_mem_formatInt t 47 (by decide) (by decide)
  have h92 := not_mem_formatInt t 92 (by decide) (by decide)
  have s47 := not_mem_stemOf d 47 (by decide)
  have s92 := not_mem_stemOf d 92 (by decide)
  have a47 : 47 ∉ lit ".amr" := by decide
  have a92 : 92 ∉ lit ".amr" := by decide
  have m47 : 47 ∉ lit ".mp3" := by decide
  have m92 : 92 ∉ lit ".mp3" := by decide
  rw [primaryPublicName_eq_stem, companionPublicName_eq_stem]
  simp only [List.mem_append, List.mem_cons, not_or]
  exact ⟨⟨h47, by decide, s47, a47⟩, ⟨h92, by decide, s92, a92⟩,
    ⟨h47, by decide, s47, m47⟩, ⟨h92, by decide, s92, m92⟩⟩

/-- C3: the code hands out a public name with `..` in it.  Uploading a file
named `a..b.mp3` publishes `1700000000_a..b.amr` and answers with the link
`/download/1700000000_a..b.amr`; `handleDownload` answers that very link with
400 "Invalid filename" without looking for the file. -/
theorem published_name_fails_name_check :
    handleUpload sampleEnv []
        = ([lit "downloads/1700000000_a..b.amr", lit "temp"],
            Response.json (lit "/download/1700000000_a..b.amr") (lit "a..b.amr") none)
      ∧ primaryPublicName 1700000000 (lit "a..b.amr") = lit "1700000000_a..b.amr"
      ∧ contains (primaryPublicName 1700000000 (lit "a..b.amr")) (lit "..") = true
      ∧ handleDownload [lit "downloads/1700000000_a..b.amr", lit "temp"]
          (lit "/download/1700000000_a..b.amr")
        = { resp := Response.error 400 (lit "Invalid filename"), fsOps := [] } := by
  decide

/-- C4, as stated, fails: an upload named `.mp3` reaches `serveFile` with the
display name `.amr` and gets the public name `1700000000_.amr`, whose display
stem is empty. -/
theorem empty_stem_public_name :
    (handleUpload { sampleEnv with formFile := some (lit ".mp3") } []).2
        = Response.json (lit "/download/1700000000_.amr") (lit ".amr") none
      ∧ primaryPublicName 1700000000 (lit ".amr") = lit "1700000000_.amr"
      ∧ ¬ IsPublicName (primaryPublicName 1700000000 (lit ".amr")) := by
  refine ⟨by decide, by decide, ?_⟩
  rintro ⟨ds, stem, ext, heq, _, hds, hstem, hext⟩
  have h95 : 95 ∉ ds := fun hm => by
    have := hds 95 hm
    revert this; decide
  have hcut := cutByte_append 95 ds (stem ++ ext) h95
  rw [← heq] at hcut
  have hval : cutByte 95 (primaryPublicName 1700000000 (lit ".amr"))
      = some (lit "1700000000", lit ".amr") := by decide
  rw [hval] at hcut
  simp only [Option.some.injEq, Prod.mk.injEq] at hcut
  have hlen := congrArg List.length hcut.2
  rcases hext with rfl | rfl <;> simp [lit] at hlen <;> exact hstem hlen

/-- C4, amended: for every display name other than the empty one and `.amr`, and
every non-negative timestamp, the primary and the companion public name are
decimal digits, one underscore, a non-empty display stem, then `.amr` (primary)
or `.mp3` (companion). -/
theorem public_names_match_pattern (t : Int) (d : GoString) (ht : 0 ≤ t)
    (h1 : d ≠ []) (h2 : d ≠ lit ".amr") :
    IsPublicName (primaryPublicName t d) ∧ IsPublicName (companionPublicName t d) := by
  have hs := stemOf_ne_nil d h1 h2
  have hf := formatInt_nonneg t ht
  have hne : formatInt t ≠ [] := hf ▸ formatNat_ne_nil _
  have hdig : ∀ c ∈ formatInt t, isDigit c = true := hf ▸ formatNat_digits _
  exact ⟨⟨formatInt t, stemOf d, lit ".amr", primaryPublicName_eq_stem t d, hne, hdig, hs,
      Or.inl rfl⟩,
    ⟨formatInt t, stemOf d, lit ".mp3", companionPublicName_eq_stem t d, hne, hdig, hs,
      Or.inr rfl⟩⟩

theorem public_names_match_pattern_witness :
    IsPublicName (primaryPublicName 1700000000 (lit "My Song"))
      ∧ IsPublicName (companionPublicName 1700000000 (lit "My Song")) :=
  public_names_match_pattern 1700000000 (lit "My Song") (by decide) (by decide) (by decide)

theorem charCount_le_length (s : GoString) : charCount s ≤ s.length :=
  List.length_filter_le _ _

theorem isAscii_sanitizeFilename (s : GoString) (h : IsAscii s) :
    IsAscii (sanitizeFilename s) := by
  intro c hc
  simp only [sanitizeFilename, List.mem_map] at hc
  obtain ⟨x, hx, rfl⟩ := hc
  split
  · decide
  · exact h x hx

theorem isAscii_amrDownloadName (d : GoString) (h : IsAscii d) :
    IsAscii (amrDownloadName d) := by
  unfold amrDownloadName
  split
  · intro c hc
    rcases List.mem_append.mp hc with h1 | h1
    · exact h c h1
    · have hamr : ∀ x ∈ lit ".amr", x < 128 := by decide
      exact hamr c h1
  · exact h

/-- C7, as stated, fails: for a display name of sixty letters `a` the part of
the primary public name behind `1700000000_` is fifty letters `a` followed by
`.amr`, 54 one-byte characters, so no part of at most 50 bytes, or of at most
50 characters, follows the prefix. -/
theorem long_name_exceeds_fifty :
    primaryPublicName 1700000000 (List.replicate 60 97)
        = formatInt 1700000000 ++ 95 :: (List.replicate 50 97 ++ lit ".amr")
      ∧ (¬ ∃ rest : GoString, primaryPublicName 1700000000 (List.replicate 60 97)
            = formatInt 1700000000 ++ 95 :: rest ∧ rest.length ≤ 50)
      ∧ ¬ ∃ rest : GoString, primaryPublicName 1700000000 (List.replicate 60 97)
            = formatInt 1700000000 ++ 95 :: rest ∧ charCount rest ≤ 50 := by
  have h0 : primaryPublicName 1700000000 (List.replicate 60 97)
      = formatInt 1700000000 ++ 95 :: (List.replicate 50 97 ++ lit ".amr") := by decide
  have hrest : ∀ rest : GoString, primaryPublicName 1700000000 (List.replicate 60 97)
      = formatInt 1700000000 ++ 95 :: rest → rest = List.replicate 50 97 ++ lit ".amr" := by
    intro rest h
    rw [h0] at h
    have h1 := List.append_cancel_left h
    exact (List.cons.inj h1).2.symm
  refine ⟨h0, ?_, ?_⟩
  · rintro ⟨rest, h, hl⟩
    rw [hrest rest h] at hl
    revert hl; decide
  · rintro ⟨rest, h, hl⟩
    rw [hrest rest h] at hl
    revert hl; decide

/-- C7, amended: for a display name of ASCII characters only, or one whose
sanitized form (a missing `.amr` added first) is at most 50 bytes long, the
part of the primary public name behind the `{timestamp}_` prefix is the
sanitized display name truncated to a prefix of at most 50 characters, followed
by `.amr` whenever that prefix does not end in `.amr`; it is never longer than
54 characters.  The prefix is the whole sanitized name, or else its first 50
characters, each one byte.  Longer names with multi-byte characters are left
out. -/
theorem primary_name_after_timestamp (t : Int) (d : GoString)
    (hd : IsAscii d ∨ (sanitizeFilename (amrDownloadName d)).length ≤ 50) :
    ∃ cut tail rest : GoString,
      sanitizeFilename (amrDownloadName d) = cut ++ tail
      ∧ (tail = [] ∨ (cut.length = 50 ∧ IsAscii (cut ++ tail)))
      ∧ charCount cut ≤ 50
      ∧ rest = (if hasSuffix cut (lit ".amr") then cut else cut ++ lit ".amr")
      ∧ charCount rest ≤ 54
      ∧ primaryPublicName t d = formatInt t ++ 95 :: rest := by
  have hl : ((sanitizeFilename (amrDownloadName d)).take 50).length ≤ 50 := by
    rw [List.length_take]; omega
  refine ⟨(sanitizeFilename (amrDownloadName d)).take 50,
    (sanitizeFilename (amrDownloadName d)).drop 50, _,
    (List.take_append_drop 50 _).symm, ?_, ?_, rfl, ?_, ?_⟩
  · by_cases hlen : (sanitizeFilename (amrDownloadName d)).length ≤ 50
    · exact Or.inl (List.drop_eq_nil_of_le hlen)
    · rcases hd with hasc | hshort
      · refine Or.inr ⟨?_, ?_⟩
        · rw [List.length_take]; omega
        · rw [List.take_append_drop]
          exact isAscii_sanitizeFilename _ (isAscii_amrDownloadName d hasc)
      · exact absurd hshort hlen
  · exact (charCount_le_length _).trans hl
  · refine (charCount_le_length _).trans ?_
    split
    · omega
    · rw [List.length_append]
      have : (lit ".amr").length = 4 := by decide
      omega
  · unfold primaryPublicName
    rw [finalAmrNameOf_eq, safeNameOf_eq_take]

theorem primary_name_after_timestamp_witness :
    ∃ cut tail rest : GoString,
      sanitizeFilename (amrDownloadName (List.replicate 60 97)) = cut ++ tail
      ∧ (tail = [] ∨ (cut.length = 50 ∧ IsAscii (cut ++ tail)))
      ∧ charCount cut ≤ 50
      ∧ rest = (if hasSuffix cut (lit ".amr") then cut else cut ++ lit ".amr")
      ∧ charCount rest ≤ 54
      ∧ primaryPublicName 1700000000 (List.replicate 60 97)
          = formatInt 1700000000 ++ 95 :: rest :=
  primary_name_after_timestamp 1700000000 (List.replicate 60 97)
    (Or.inl (by unfold IsAscii; decide))

/-- Outside the names covered above: seventeen three-byte characters make a
sanitized name of 55 bytes, and the cut after byte 50 keeps the first two bytes
of the last character only. -/
theorem byte_cut_splits_character :
    (safeNameOf (amrDownloadName
        ((List.replicate 17 [230, 173, 140]).flatten))).drop 48 = [230, 173] := by
  decide

/-! ## The response of serveFile -/

theorem serveMp3_some (env : Env) (fs : FS) (downloadName safeName originalMp3Path : GoString)
    (mp3Url mp3Name : GoString)
    (h : (serveMp3 env fs downloadName safeName originalMp3Path).2 = some (mp3Url, mp3Name)) :
    mp3Url = lit "/download/" ++ finalMp3NameOf env.now safeName := by
  unfold serveMp3 at h
  split at h
  · split at h
    · split at h
      · simp only [Option.some.injEq, Prod.mk.injEq] at h
        exact h.1.symm
      · exact absurd h (by simp)
    · exact absurd h (by simp)
  · exact absurd h (by simp)

theorem serveFile_json (env : Env) (fs fs' : FS) (amrPath d mp3Path url name : GoString)
    (mp3 : Option (GoString × GoString))
    (h : serveFile env fs amrPath d mp3Path = (fs', Response.json url name mp3)) :
    url = lit "/download/" ++ primaryPublicName env.now d ∧ name = amrDownloadName d
      ∧ ∀ mp3Url mp3Name, mp3 = some (mp3Url, mp3Name) →
          mp3Url = lit "/download/" ++ companionPublicName env.now d := by
  unfold serveFile at h
  split at h
  · simp at h
  · simp only at h
    split at h
    · simp at h
    · simp only [Prod.mk.injEq, Response.json.injEq] at h
      obtain ⟨_, hu, hn, hm⟩ := h
      refine ⟨hu.symm, hn.symm, ?_⟩
      intro mp3Url mp3Name hsome
      rw [hsome] at hm
      exact serveMp3_some _ _ _ _ _ _ _ hm

/-- C8: whenever `serveFile` publishes a companion artifact, for any display
name, the public name in the companion link is the public name in the primary
link with its trailing `.amr` replaced by `.mp3`, and both names begin with the
same `{timestamp}_`. -/
theorem companion_name_from_primary (env : Env) (fs fs' : FS)
    (amrPath d mp3Path url name mp3Url mp3Name : GoString)
    (h : serveFile env fs amrPath d mp3Path
      = (fs', Response.json url name (some (mp3Url, mp3Name)))) :
    url = lit "/download/" ++ primaryPublicName env.now d
      ∧ mp3Url = lit "/download/" ++ companionPublicName env.now d
      ∧ hasSuffix (primaryPublicName env.now d) (lit ".amr") = true
      ∧ companionPublicName env.now d
          = trimSuffix (primaryPublicName env.now d) (lit ".amr") ++ lit ".mp3"
      ∧ hasPrefix (primaryPublicName env.now d) (formatInt env.now ++ [95]) = true
      ∧ hasPrefix (companionPublicName env.now d) (formatInt env.now ++ [95]) = true := by
  obtain ⟨hu, _, hm⟩ := serveFile_json env fs fs' amrPath d mp3Path url name _ h
  have hp := primaryPublicName_eq_stem env.now d
  have hc := companionPublicName_eq_stem env.now d
  have hp2 : primaryPublicName env.now d
      = (formatInt env.now ++ 95 :: stemOf d) ++ lit ".amr" := by
    rw [hp]; simp
  refine ⟨hu, hm mp3Url mp3Name rfl, ?_, ?_, ?_, ?_⟩
  · rw [hp2, hasSuffix_iff]; exact List.suffix_append _ _
  · rw [hp2, trimSuffix_append, hc]; simp
  · rw [hp, hasPrefix_iff]; exact ⟨stemOf d ++ lit ".amr", by simp⟩
  · rw [hc, hasPrefix_iff]; exact ⟨stemOf d ++ lit ".mp3", by simp⟩

theorem companion_name_from_primary_witness :
    lit "/download/1700000000_x.AMR.amr"
        = lit "/download/" ++ primaryPublicName sampleEnv.now (lit "x.AMR")
      ∧ lit "/download/1700000000_x.AMR.mp3"
        = lit "/download/" ++ companionPublicName sampleEnv.now (lit "x.AMR")
      ∧ hasSuffix (primaryPublicName sampleEnv.now (lit "x.AMR")) (lit ".amr") = true
      ∧ companionPublicName sampleEnv.now (lit "x.AMR")
          = trimSuffix (primaryPublicName sampleEnv.now (lit "x.AMR")) (lit ".amr")
            ++ lit ".mp3"
      ∧ hasPrefix (primaryPublicName sampleEnv.now (lit "x.AMR"))
          (formatInt sampleEnv.now ++ [95]) = true
      ∧ hasPrefix (companionPublicName sampleEnv.now (lit "x.AMR"))
          (formatInt sampleEnv.now ++ [95]) = true :=
  companion_name_from_primary sampleEnv [lit "temp/url-1.mp3.amr", lit "temp/url-1.mp3"]
    [lit "downloads/1700000000_x.AMR.mp3", lit "downloads/1700000000_x.AMR.amr",
      lit "temp/url-1.mp3.amr", lit "temp/url-1.mp3"]
    (lit "temp/url-1.mp3.amr") (lit "x.AMR") (lit "temp/url-1.mp3")
    (lit "/download/1700000000_x.AMR.amr") (lit "x.AMR")
    (lit "/download/1700000000_x.AMR.mp3") (lit "x.AMR.mp3") (by decide)

/-! ## The base name of a recognized address -/

/-- C9: for a recognized address (it contains `music.163.com` and has a numeric
`id` parameter) whose title lookup returns the empty string, the artist is
ignored: the derived base name is the same under any other lookup whose title
is empty too, whatever the two artist lookups return (the empty string
included); it is the result of the path-basename fallback on the rewritten
address or else the fixed default; and as the path of the rewritten address is
`/`, it is `arcpi` and never `_` followed by the artist. -/
theorem empty_title_ignores_artist (env : Env) (fetchOther : GoString → GoString)
    (urlStr neteaseID : GoString)
    (hdom : contains urlStr (lit "music.163.com") = true)
    (hid : findId urlStr = some neteaseID)
    (htitle : env.fetchAPI (nameApiUrl neteaseID) = [])
    (hother : fetchOther (nameApiUrl neteaseID) = []) :
    (deriveFilename env urlStr).filename
        = (deriveFilename { env with fetchAPI := fetchOther } urlStr).filename
      ∧ (deriveFilename env urlStr).filename
        = (if urlBasename env [] (resourceApiUrl neteaseID) = [] then lit "arcpi"
            else urlBasename env [] (resourceApiUrl neteaseID))
      ∧ (env.urlParse (resourceApiUrl neteaseID) = some (lit "/") →
          (deriveFilename env urlStr).filename = lit "arcpi"
            ∧ (deriveFilename env urlStr).filename
              ≠ 95 :: env.fetchAPI (artistApiUrl neteaseID)) := by
  have h1 : (deriveFilename env urlStr).filename
      = (if urlBasename env [] (resourceApiUrl neteaseID) = [] then lit "arcpi"
          else urlBasename env [] (resourceApiUrl neteaseID)) := by
    simp only [deriveFilename, neteaseStep, hdom, hid, htitle, metadataName, if_true]
    simp
  have h2 : (deriveFilename { env with fetchAPI := fetchOther } urlStr).filename
      = (if urlBasename env [] (resourceApiUrl neteaseID) = [] then lit "arcpi"
          else urlBasename env [] (resourceApiUrl neteaseID)) := by
    simp only [deriveFilename, neteaseStep, hdom, hid, hother, metadataName, if_true]
    simp [urlBasename]
  refine ⟨h1.trans h2.symm, h1, ?_⟩
  intro hparse
  have h3 : urlBasename env [] (resourceApiUrl neteaseID) = [] := by
    have hb : filepathBase (lit "/") = lit "/" := by decide
    simp [urlBasename, hparse, hb]
  have harc : lit "arcpi" = [97, 114, 99, 112, 105] := by decide
  rw [h1, h3, harc]
  exact ⟨by simp, by simp⟩

theorem empty_title_ignores_artist_witness :
    (deriveFilename sampleEnv (lit "https://music.163.com/song?id=42")).filename
        = (deriveFilename { sampleEnv with fetchAPI := fun _ => [] }
            (lit "https://music.163.com/song?id=42")).filename
      ∧ (deriveFilename sampleEnv (lit "https://music.163.com/song?id=42")).filename
        = lit "arcpi"
      ∧ (deriveFilename sampleEnv (lit "https://music.163.com/song?id=42")).filename
        ≠ 95 :: sampleEnv.fetchAPI (artistApiUrl (lit "42")) :=
  have h := empty_title_ignores_artist sampleEnv (fun _ => [])
    (lit "https://music.163.com/song?id=42") (lit "42") (by decide) (by decide) (by decide) rfl
  ⟨h.1, (h.2.2 (by decide)).1, (h.2.2 (by decide)).2⟩

/-! ## The staged input -/

theorem not_mem_fsRemove_self (fs : FS) (p : GoString) : p ∉ fsRemove fs p := by
  simp [fsRemove]

theorem not_mem_fsRemove (fs : FS) (p q : GoString) (hp : p ∉ fs) : p ∉ fsRemove fs q := by
  intro hm
  exact hp (List.mem_of_mem_filter hm)

/-- C10: with the file system as explicit state and every outcome of the copy,
the encoder and the publication left open, the staged file that `handleUpload`
or `handleUrlConvert` creates does not exist when the handler has returned,
whichever way it returns. -/
theorem staged_input_removed (env : Env) (fs : FS) (tempInput : GoString)
    (hcreate : env.createTemp = some tempInput) (hfresh : tempInput ∉ fs) :
    tempInput ∉ (handleUpload env fs).1 ∧ tempInput ∉ (handleUrlConvert env fs).1 := by
  constructor
  · unfold handleUpload
    split
    · exact hfresh
    · split
      · exact hfresh
      · split
        · exact hfresh
        · simp only [hcreate]
          split
          · exact not_mem_fsRemove_self _ _
          · split
            · exact not_mem_fsRemove_self _ _
            · exact not_mem_fsRemove_self _ _
  · unfold handleUrlConvert
    split
    · exact hfresh
    · split
      · exact hfresh
      · simp only
        split
        · exact hfresh
        · split
          · exact hfresh
          · split
            · exact hfresh
            · simp only [hcreate]
              split
              · exact not_mem_fsRemove_self _ _
              · split
                · exact not_mem_fsRemove_self _ _
                · exact not_mem_fsRemove _ _ _ (not_mem_fsRemove_self _ _)

theorem staged_input_removed_witness :
    lit "temp/url-1.mp3" ∉ (handleUpload sampleEnv [lit "downloads/17_a.amr"]).1
      ∧ lit "temp/url-1.mp3" ∉ (handleUrlConvert sampleEnv [lit "downloads/17_a.amr"]).1 :=
  staged_input_removed sampleEnv [lit "downloads/17_a.amr"] (lit "temp/url-1.mp3")
    (by decide) (by decide)

end Mp3ToAmr
